import Mathlib

/-!
Verification development for the `my_python_tools` repository: three small
command-line utilities (`catcb.py`, `copipe.py`, `gitdiffcb.py`) that collect
files from a directory tree, concatenate their contents with path headers,
and copy the result to the clipboard, or capture `git diff` output.

Shallow embedding conventions:
* Python `str` values are modelled as `List Char` (`Str` below); all string
  operations (`startswith`, `endswith`, `rstrip`, slicing) become list
  operations on characters.
* The filesystem is modelled as a finite tree `FSTree` whose directory
  listings carry the order in which `os.walk` enumerates entries.
* File reads (`open(...).read()` under `try/except`) are modelled as a
  function `Str → Except Str Str`: `.ok content` for a successful UTF-8 read,
  `.error msg` for any raised exception rendered as `str(e)`.
* Effectful `main` functions are modelled as pure functions from an
  environment to a result record (exit code, stdout lines, stderr lines,
  clipboard write).
-/

/-- Python strings, modelled as lists of characters. -/
abbrev Str := List Char

deriving instance DecidableEq for Except

/-- Lexicographic comparison of strings by code point, the order Python's
`sorted` uses on `str` (`a ≤ b`). -/
def lexLe : Str → Str → Bool
  | [], _ => true
  | _ :: _, [] => false
  | a :: as, b :: bs =>
    if a.toNat < b.toNat then true
    else if b.toNat < a.toNat then false
    else lexLe as bs

/-- The order `lexLe` decides, as a relation. -/
def LexLe (a b : Str) : Prop := lexLe a b = true

instance : DecidableRel LexLe := fun a b => instDecidableEqBool (lexLe a b) true

/-- Python `sorted` on a list of strings: a stable sort by `LexLe`. Since
`LexLe` is antisymmetric, every sorting algorithm produces the same list
here; insertion sort is used as the model. -/
def sortedPy (l : List Str) : List Str := List.insertionSort LexLe l

/-! ## Glob matching (`fnmatch.fnmatch`)

`fnmatch` translates the pattern to a regular expression: `*` matches any
character sequence (including `/`), `?` any single character, and `[...]` a
character class with optional leading `!` negation, a literal `]` when it is
the first class member, and `a-b` ranges. An unclosed `[` is a literal `[`.
On POSIX `os.path.normcase` is the identity, so matching is case-sensitive. -/

/-- One member of a glob character class: a single character or a range. -/
inductive ClsItem where
  | single : Char → ClsItem
  | range : Char → Char → ClsItem
deriving DecidableEq

/-- One token of a compiled glob pattern. -/
inductive GlobTok where
  | lit : Char → GlobTok
  | anyOne : GlobTok
  | anySeq : GlobTok
  | cls : Bool → List ClsItem → GlobTok
deriving DecidableEq

/-- Parse the body of a character class (between `[` and `]`) into items;
`a-b` forms a range, a trailing `-` is a literal. -/
def parseClassItems : Str → List ClsItem
  | [] => []
  | [c] => [.single c]
  | a :: '-' :: [] => [.single a, .single '-']
  | a :: '-' :: b :: rest => .range a b :: parseClassItems rest
  | a :: rest => .single a :: parseClassItems rest

/-- A leading `!` right after `[` negates the class. -/
def stripNeg : Str → Bool × Str
  | '!' :: t => (true, t)
  | r => (false, r)

/-- Split a class body from the remainder: a `]` in first position is part of
the body; the body then runs up to the next `]`. -/
def classBody : Str → Str × Str
  | ']' :: t =>
    (']' :: t.takeWhile (fun c => decide (c ≠ ']')),
      t.dropWhile (fun c => decide (c ≠ ']')))
  | t => (t.takeWhile (fun c => decide (c ≠ ']')), t.dropWhile (fun c => decide (c ≠ ']')))

/-- Scan the text after a `[`: on a well-formed class return the negation
flag, the class body and the text after the closing `]`; otherwise `none`
(the `[` is then treated as a literal). -/
def splitClass (r : Str) : Option (Bool × Str × Str) :=
  match (classBody (stripNeg r).2).2 with
  | ']' :: r3 => some ((stripNeg r).1, (classBody (stripNeg r).2).1, r3)
  | _ => none

/-- Compile a glob pattern into tokens, following `fnmatch.translate`.
Structural recursion on a fuel argument; every step consumes at least one
character of the pattern (`splitClass_length`, proved below), so
`fuel = pattern length` never runs out and the `fuel = 0` branch is
unreachable. -/
def parseGlobF : Nat → Str → List GlobTok
  | 0, _ => []
  | _ + 1, [] => []
  | fuel + 1, '*' :: rest => .anySeq :: parseGlobF fuel rest
  | fuel + 1, '?' :: rest => .anyOne :: parseGlobF fuel rest
  | fuel + 1, '[' :: rest =>
    match splitClass rest with
    | some (neg, body, rest3) => .cls neg (parseClassItems body) :: parseGlobF fuel rest3
    | none => .lit '[' :: parseGlobF fuel rest
  | fuel + 1, c :: rest => .lit c :: parseGlobF fuel rest

/-- Compile a glob pattern into tokens. -/
def parseGlob (pat : Str) : List GlobTok := parseGlobF pat.length pat

/-- Membership of a character in a class body. -/
def inClass (items : List ClsItem) (c : Char) : Bool :=
  items.any fun it =>
    match it with
    | .single a => a == c
    | .range a b => decide (a.val ≤ c.val) && decide (c.val ≤ b.val)

/-- Whether a single-character token matches a character. -/
def tokMatchesChar : GlobTok → Char → Bool
  | .lit a, c => a == c
  | .anyOne, _ => true
  | .anySeq, _ => true
  | .cls neg items, c => neg != inClass items c

/-- Match a compiled glob pattern against a string; `anySeq` (`*`) may
consume any number of characters, including path separators. Structural
recursion on a fuel argument; every step decreases `tokens + characters`
remaining, so `fuel = tokens + characters + 1` never runs out. -/
def globMatchF : Nat → List GlobTok → Str → Bool
  | 0, _, _ => false
  | _ + 1, [], [] => true
  | _ + 1, [], _ :: _ => false
  | fuel + 1, .anySeq :: ts, [] => globMatchF fuel ts []
  | fuel + 1, .anySeq :: ts, c :: cs =>
    globMatchF fuel ts (c :: cs) || globMatchF fuel (.anySeq :: ts) cs
  | _ + 1, _ :: _, [] => false
  | fuel + 1, t :: ts, c :: cs => tokMatchesChar t c && globMatchF fuel ts cs

/-- Match a compiled glob pattern against a whole string. -/
def globMatchToks (ts : List GlobTok) (s : Str) : Bool :=
  globMatchF (ts.length + s.length + 1) ts s

/-- `fnmatch.fnmatch(name, pattern)` on POSIX (where `normcase` is the
identity): whole-string glob match. -/
def fnmatch (name pat : Str) : Bool := globMatchToks (parseGlob pat) name

/-! ## Filesystem model

A directory tree: regular-file basenames and named subdirectories, each list
in the order `os.walk` enumerates them. `os.walk(base)` is top-down: it
yields the base directory's files first, then recursively processes each
subdirectory in listing order. -/

/-- A directory of a filesystem tree. -/
inductive FSTree where
  | dir : List Str → List (Str × FSTree) → FSTree

/-- The regular files directly inside a directory. -/
def FSTree.files : FSTree → List Str
  | .dir fs _ => fs

/-- The named subdirectories directly inside a directory. -/
def FSTree.subdirs : FSTree → List (Str × FSTree)
  | .dir _ sds => sds

mutual

/-- All `(basename, relative path)` pairs produced by a full recursive
`os.walk` from the root of `t`, in walk order; `os.path.relpath(join(root,
filename), base)` is the `/`-joined path below the base. -/
def walkEntries : FSTree → List (Str × Str)
  | .dir files subdirs => files.map (fun f => (f, f)) ++ walkEntriesList subdirs

/-- Walk entries contributed by a list of subdirectories, each entry's
relative path prefixed with the subdirectory name and a `/`. -/
def walkEntriesList : List (Str × FSTree) → List (Str × Str)
  | [] => []
  | (name, sub) :: rest =>
    (walkEntries sub).map (fun e => (e.1, name ++ '/' :: e.2)) ++ walkEntriesList rest

end

/-- The `(basename, relative path)` pairs seen when the walk loop `break`s
after the first iteration (non-recursive mode): the base directory's own
files only. -/
def topEntries (t : FSTree) : List (Str × Str) := t.files.map (fun f => (f, f))

/-- The entries a walk loop examines: all of them when recursive, the base
directory's own files otherwise. -/
def entriesOf (t : FSTree) (recursive : Bool) : List (Str × Str) :=
  if recursive then walkEntries t else topEntries t

mutual

/-- A realisable directory tree: within each directory, file names and
subdirectory names are distinct and contain no path separator. -/
def wellFormed : FSTree → Bool
  | .dir files subdirs =>
    decide files.Nodup &&
    files.all (fun f => !f.contains '/') &&
    decide (subdirs.map Prod.fst).Nodup &&
    (subdirs.map Prod.fst).all (fun d => !d.contains '/') &&
    wellFormedList subdirs

/-- `wellFormed` for each tree in a subdirectory list. -/
def wellFormedList : List (Str × FSTree) → Bool
  | [] => true
  | (_, sub) :: rest => wellFormed sub && wellFormedList rest

end

mutual

/-- Whether the non-empty segment list `segs` names a regular file in `t`:
a single segment names a file of the current directory, a longer list
descends into a subdirectory of that name. -/
def isFileAt : FSTree → List Str → Bool
  | .dir files _, [s] => files.contains s
  | .dir _ subdirs, d :: s :: rest => isFileAtList subdirs d (s :: rest)
  | _, [] => false

/-- Look up the subdirectory named `d` and continue `isFileAt` there. -/
def isFileAtList : List (Str × FSTree) → Str → List Str → Bool
  | [], _, _ => false
  | (name, sub) :: tail, d, segs =>
    (name == d && isFileAt sub segs) || isFileAtList tail d segs

end

/-- Join path segments with `/`. -/
def joinSegs : List Str → Str
  | [] => []
  | [s] => s
  | s :: rest => s ++ '/' :: joinSegs rest

/-! ## `catcb.py` -/

namespace Catcb

/-- `rstrip('/')`: drop trailing `/` characters. -/
def rstripSlash (s : Str) : Str :=
  (s.reverse.dropWhile (fun c => c == '/')).reverse

/-- `matches_any_pattern(path, patterns)` from `catcb.py`: a pattern with no
path separator and no wildcard also excludes as a directory name, matching
any path that starts with `pattern.rstrip('/') + '/'`; every pattern is also
tried as a glob against the whole path. -/
def matches_any_pattern (path : Str) (patterns : List Str) : Bool :=
  patterns.any fun pattern =>
    ((!pattern.contains '/' && !pattern.contains '*' && !pattern.contains '?') &&
      (rstripSlash pattern ++ ['/']).isPrefixOf path) ||
    fnmatch path pattern

/-- The two `continue` checks in the body of `collect_files`'s loop, in
source order: first the include filter on the basename, then the exclude
filter on the relative path. Empty (or absent) pattern lists are falsy in
Python, disabling the corresponding filter. -/
def keepFile (includes excludes : List Str) (filename relpath : Str) : Bool :=
  if !includes.isEmpty && !matches_any_pattern filename includes then false
  else if !excludes.isEmpty && matches_any_pattern relpath excludes then false
  else true

/-- `collect_files(base_dir, recursive, includes, excludes)` from
`catcb.py`: walk the tree (all of it when recursive, else the base directory
only, via the `break`), keep files passing the two filters, and return their
relative paths in walk order. -/
def collect_files (tree : FSTree) (recursive : Bool)
    (includes excludes : List Str) : List Str :=
  ((entriesOf tree recursive).filter fun e =>
    keepFile includes excludes e.1 e.2).map Prod.snd

end Catcb

/-- Decimal rendering of a natural number, for `f"{len(...)}"` parts of
messages. -/
def natStr (n : Nat) : Str := Nat.toDigits 10 n

/-- `os.path.join(a, b)` for a relative `b` on POSIX: insert a `/` unless
`a` is empty or already ends with one; an absolute `b` replaces `a`. -/
def os_path_join (a b : Str) : Str :=
  if b.head? = some '/' then b
  else if a.isEmpty then b
  else if a.getLast? = some '/' then a ++ b
  else a ++ '/' :: b

/-- Result of a run of `catcb.py`/`copipe.py` `main`: printed lines and the
clipboard write, if any. -/
structure CliResult where
  stdout_lines : List Str
  clipboard : Option Str
deriving DecidableEq

namespace Catcb

/-- One `contents` entry of `build_output`: `"<relpath>:\n<content>"` when
the read succeeds, `"<relpath>: [Error reading file: <e>]"` when it raises. -/
def renderBlock (readFile : Str → Except Str Str) (base_dir relpath : Str) : Str :=
  match readFile (os_path_join base_dir relpath) with
  | .ok file_content => relpath ++ ':' :: '\n' :: file_content
  | .error e => relpath ++ (": [Error reading file: ".toList) ++ e ++ [']']

/-- `build_output(base_dir, file_paths)` from `catcb.py`: iterate over the
sorted paths appending one block per path, then join with a blank line. -/
def build_output (readFile : Str → Except Str Str) (base_dir : Str)
    (file_paths : List Str) : Str :=
  List.intercalate ('\n' :: '\n' :: [])
    ((sortedPy file_paths).foldl
      (fun contents relpath => contents ++ [renderBlock readFile base_dir relpath]) [])

/-- The preview footer `f"\nTotal: {len(files)} file(s) matched."`. -/
def previewTotal (n : Nat) : Str :=
  '\n' :: ("Total: ".toList) ++ natStr n ++ (" file(s) matched.".toList)

/-- `main` of `catcb.py` after argument parsing: collect, then either
preview (no clipboard) or build the output, optionally echo it, copy it to
the clipboard and report. -/
def main (tree : FSTree) (readFile : Str → Except Str Str) (base_dir : Str)
    (recursive preview verbose : Bool) (includes excludes : List Str) : CliResult :=
  let files := collect_files tree recursive includes excludes
  if preview then
    { stdout_lines :=
        ("Matched files:".toList) :: sortedPy files ++ [previewTotal files.length],
      clipboard := none }
  else
    let output := build_output readFile base_dir files
    { stdout_lines := (if verbose then [output] else []) ++ ["Copied to clipboard.".toList],
      clipboard := some output }

end Catcb

/-! ## `copipe.py` -/

namespace Copipe

/-- `collect_files(base_dir, recursive, extensions)` from `copipe.py`: keep
a file when the extension list is absent or its basename `endswith` one of
the given extension strings (a raw suffix check), and return relative paths
in walk order. -/
def collect_files (tree : FSTree) (recursive : Bool) (extensions : List Str) : List Str :=
  ((entriesOf tree recursive).filter fun e =>
    extensions.isEmpty || extensions.any (fun ext => ext.isSuffixOf e.1)).map Prod.snd

/-- `build_output(base_dir, file_paths)` from `copipe.py`; identical to the
`catcb.py` version except that the header is built in a separate f-string. -/
def build_output (readFile : Str → Except Str Str) (base_dir : Str)
    (file_paths : List Str) : Str :=
  List.intercalate ('\n' :: '\n' :: [])
    ((sortedPy file_paths).foldl
      (fun contents relpath =>
        match readFile (os_path_join base_dir relpath) with
        | .ok file_content => contents ++ [(relpath ++ [':']) ++ '\n' :: file_content]
        | .error e =>
          contents ++ [relpath ++ (": [Error reading file: ".toList) ++ e ++ [']']]) [])

/-- `main` of `copipe.py` after argument parsing: collect, build the output,
optionally echo it, copy it to the clipboard and report. -/
def main (tree : FSTree) (readFile : Str → Except Str Str) (base_dir : Str)
    (recursive verbose : Bool) (extensions : List Str) : CliResult :=
  let files := collect_files tree recursive extensions
  let output := build_output readFile base_dir files
  { stdout_lines := (if verbose then [output] else []) ++ ["Copied to clipboard.".toList],
    clipboard := some output }

end Copipe

/-! ## `gitdiffcb.py` -/

namespace Gitdiffcb

/-- Whitespace for Python's `str.strip()`: the code points CPython's
`Py_UNICODE_ISSPACE` accepts. -/
def isPySpace (c : Char) : Bool :=
  let n := c.toNat
  (9 ≤ n && n ≤ 13) || (28 ≤ n && n ≤ 31) || n == 32 || n == 133 || n == 160 ||
  n == 0x1680 || (0x2000 ≤ n && n ≤ 0x200A) || n == 0x2028 || n == 0x2029 ||
  n == 0x202F || n == 0x205F || n == 0x3000

/-- Python `str.strip()`: remove leading and trailing whitespace. -/
def pyStrip (s : Str) : Str :=
  ((s.dropWhile isPySpace).reverse.dropWhile isPySpace).reverse

/-- Result of a run of `gitdiffcb.py` `main`. -/
structure MainResult where
  exit_code : Nat
  stdout_lines : List Str
  stderr_lines : List Str
  clipboard : Option Str
deriving DecidableEq

/-- The success message, including the `option_label` chosen from the flags
and the character count of the diff. -/
def copiedMessage (staged cached : Bool) (diff_output : Str) : Str :=
  ("Copied `git diff ".toList) ++
    (if staged then "--staged".toList else if cached then "--cached".toList else []) ++
    ("` to clipboard. (".toList) ++ natStr diff_output.length ++ (" characters)".toList)

/-- `main` of `gitdiffcb.py` after argument parsing. The environment is the
result of the two subprocess calls: `is_repo` is whether
`git rev-parse --is-inside-work-tree` succeeds in the working directory, and
`git_diff staged` is the standard output of `git --no-pager diff`
(with `--cached` when `staged` is true). -/
def main (is_repo : Bool) (git_diff : Bool → Str)
    (staged cached verbose : Bool) : MainResult :=
  if !is_repo then
    { exit_code := 1, stdout_lines := [],
      stderr_lines := ["Error: Not a Git repository.".toList], clipboard := none }
  else
    let staged_flag := staged || cached
    let diff_output := git_diff staged_flag
    if (pyStrip diff_output).isEmpty then
      { exit_code := 0, stdout_lines := ["No changes found. Nothing copied.".toList],
        stderr_lines := [], clipboard := none }
    else
      { exit_code := 0,
        stdout_lines := (if verbose then [diff_output] else []) ++
          [copiedMessage staged cached diff_output],
        stderr_lines := [], clipboard := some diff_output }

end Gitdiffcb

/-! ## Concrete trees and environments used by witnesses -/

/-- A small tree: files `a.py`, `b.txt` and a subdirectory
`node_modules` containing `x.py`. -/
def sampleTree : FSTree :=
  .dir ["a.py".toList, "b.txt".toList]
    [("node_modules".toList, .dir ["x.py".toList] [])]

/-- A tree whose walk order is not lexicographic: the base file `z` is
walked before the subdirectory file `a/b`. -/
def unsortedTree : FSTree :=
  .dir ["z".toList] [("a".toList, .dir ["b".toList] [])]

/-- A tree containing the single file `happy`. -/
def happyTree : FSTree := .dir ["happy".toList] []

/-- An empty directory tree. -/
def emptyTree : FSTree := .dir [] []

/-- A two-file read environment: `a.txt` reads as `hello`, `gone.txt`
raises (for instance, deleted between collection and formatting). -/
def sampleRead : Str → Except Str Str := fun path =>
  if path = "/base/a.txt".toList then .ok ("hello".toList)
  else .error ("No such file or directory".toList)

/-- A read environment agreeing with `sampleRead` everywhere except on the
unrelated path `/base/zzz`. -/
def sampleRead2 : Str → Except Str Str := fun path =>
  if path = "/base/zzz".toList then .ok ("unused".toList) else sampleRead path

/-! ## General lemmas -/

theorem length_dropWhile_le (p : Char → Bool) (l : Str) :
    (l.dropWhile p).length ≤ l.length := by
  induction l with
  | nil => simp
  | cons c cs ih =>
    by_cases h : p c
    · simp only [List.dropWhile_cons, h, if_true, List.length_cons]
      omega
    · simp [List.dropWhile_cons, h]

theorem stripNeg_length (r : Str) : (stripNeg r).2.length ≤ r.length := by
  unfold stripNeg
  split
  · simp
  · simp

theorem classBody_length (r : Str) : (classBody r).2.length ≤ r.length := by
  unfold classBody
  split
  · exact le_trans (length_dropWhile_le _ _) (by simp)
  · exact length_dropWhile_le _ _

theorem splitClass_length {r : Str} {neg : Bool} {body rest3 : Str}
    (h : splitClass r = some (neg, body, rest3)) : rest3.length < r.length := by
  unfold splitClass at h
  split at h
  · rename_i r3 heq
    injection h with h'
    have hr3 : r3 = rest3 := congrArg (fun p : Bool × Str × Str => p.2.2) h'
    have h1 : (']' :: r3).length ≤ (stripNeg r).2.length := by
      rw [← heq]; exact classBody_length _
    have h2 := stripNeg_length r
    rw [← hr3]
    simp only [List.length_cons] at h1
    omega
  · exact absurd h (by simp)

theorem lexLe_total (a b : Str) : lexLe a b = true ∨ lexLe b a = true := by
  induction a generalizing b with
  | nil => left; rfl
  | cons x xs ih =>
    cases b with
    | nil => right; rfl
    | cons y ys =>
      by_cases h1 : x.toNat < y.toNat
      · left; simp [lexLe, h1]
      · by_cases h2 : y.toNat < x.toNat
        · right; simp [lexLe, h2]
        · rcases ih ys with h | h
          · left; simp [lexLe, h1, h2, h]
          · right; simp [lexLe, h1, h2, h]

theorem lexLe_trans {a b c : Str} (hab : lexLe a b = true) (hbc : lexLe b c = true) :
    lexLe a c = true := by
  induction a generalizing b c with
  | nil => rfl
  | cons x xs ih =>
    cases b with
    | nil => simp [lexLe] at hab
    | cons y ys =>
      cases c with
      | nil => simp [lexLe] at hbc
      | cons z zs =>
        simp only [lexLe] at hab hbc ⊢
        by_cases h1 : x.toNat < y.toNat
        · by_cases h3 : y.toNat < z.toNat
          · have h5 : x.toNat < z.toNat := by omega
            simp [h5]
          · by_cases h4 : z.toNat < y.toNat
            · simp [h3, h4] at hbc
            · have h5 : x.toNat < z.toNat := by omega
              simp [h5]
        · by_cases h2 : y.toNat < x.toNat
          · simp [h1, h2] at hab
          · simp [h1, h2] at hab
            by_cases h3 : y.toNat < z.toNat
            · have h5 : x.toNat < z.toNat := by omega
              simp [h5]
            · by_cases h4 : z.toNat < y.toNat
              · simp [h3, h4] at hbc
              · simp [h3, h4] at hbc
                have h5 : ¬ x.toNat < z.toNat := by omega
                have h6 : ¬ z.toNat < x.toNat := by omega
                simp [h5, h6]
                exact ih hab hbc

theorem sortedPy_sorted (l : List Str) : List.Sorted LexLe (sortedPy l) :=
  @List.sorted_insertionSort _ LexLe _ ⟨lexLe_total⟩
    ⟨fun _ _ _ hab hbc => lexLe_trans hab hbc⟩ l

theorem sortedPy_perm (l : List Str) : (sortedPy l).Perm l :=
  List.perm_insertionSort _ l

theorem sortedPy_length (l : List Str) : (sortedPy l).length = l.length :=
  List.length_insertionSort _ l

theorem fnmatch_sanity_pos : fnmatch "test_foo.py".toList "test_*.py".toList = true := by
  decide

theorem fnmatch_sanity_neg : fnmatch "foo.py".toList "test_*.py".toList = false := by
  decide

theorem fnmatch_sanity_sep : fnmatch "a/b.py".toList "*.py".toList = true := by
  decide

theorem fnmatch_sanity_cls :
    fnmatch "cb".toList "[!ab]b".toList = true ∧
    fnmatch "bb".toList "[!ab]b".toList = false ∧
    fnmatch "m.py".toList "[a-z].p?".toList = true ∧
    fnmatch "node_modules/a".toList "node_modules".toList = false := by
  decide

/-! ## Collector lemmas -/

theorem contains_false_not_mem {s : Str} {c : Char} (h : s.contains c = false) :
    c ∉ s := by
  intro hm
  have h2 : List.contains s c = true := List.elem_iff.mpr hm
  rw [h] at h2
  exact Bool.false_ne_true h2

theorem wellFormed_dir {files : List Str} {subdirs : List (Str × FSTree)}
    (h : wellFormed (.dir files subdirs) = true) :
    files.Nodup ∧ (∀ f ∈ files, ('/' : Char) ∉ f) ∧
    (subdirs.map Prod.fst).Nodup ∧ (∀ d ∈ subdirs.map Prod.fst, ('/' : Char) ∉ d) ∧
    wellFormedList subdirs = true := by
  rw [wellFormed] at h
  simp only [Bool.and_eq_true, decide_eq_true_eq, List.all_eq_true,
    Bool.not_eq_true'] at h
  exact ⟨h.1.1.1.1, fun f hf => contains_false_not_mem (h.1.1.1.2 f hf),
    h.1.1.2, fun d hd => contains_false_not_mem (h.1.2 d hd), h.2⟩

theorem wellFormedList_mem {l : List (Str × FSTree)} {name : Str} {sub : FSTree}
    (hwfl : wellFormedList l = true) (hmem : (name, sub) ∈ l) :
    wellFormed sub = true := by
  induction l with
  | nil => simp at hmem
  | cons hd tl ih =>
    obtain ⟨n, s⟩ := hd
    rw [wellFormedList] at hwfl
    simp only [Bool.and_eq_true] at hwfl
    rcases List.mem_cons.mp hmem with h | h
    · injection h with h1 h2
      rw [h2]; exact hwfl.1
    · exact ih hwfl.2 h

mutual

theorem walkEntries_fn_no_slash (t : FSTree) (hwf : wellFormed t = true) :
    ∀ e ∈ walkEntries t, ('/' : Char) ∉ e.1 := by
  match t with
  | .dir files subdirs =>
    intro e he
    obtain ⟨_, hfiles, _, _, hwfl⟩ := wellFormed_dir hwf
    rw [walkEntries] at he
    rcases List.mem_append.mp he with h | h
    · rcases List.mem_map.mp h with ⟨f, hf, rfl⟩
      exact hfiles f hf
    · exact walkEntriesList_fn_no_slash subdirs hwfl e h

theorem walkEntriesList_fn_no_slash (l : List (Str × FSTree))
    (hwfl : wellFormedList l = true) :
    ∀ e ∈ walkEntriesList l, ('/' : Char) ∉ e.1 := by
  match l with
  | [] => intro e he; rw [walkEntriesList] at he; simp at he
  | (name, sub) :: rest =>
    intro e he
    rw [wellFormedList] at hwfl
    simp only [Bool.and_eq_true] at hwfl
    rw [walkEntriesList] at he
    rcases List.mem_append.mp he with h | h
    · rcases List.mem_map.mp h with ⟨e', he', rfl⟩
      exact walkEntries_fn_no_slash sub hwfl.1 e' he'
    · exact walkEntriesList_fn_no_slash rest hwfl.2 e h

end

theorem entriesOf_fn_no_slash (t : FSTree) (recursive : Bool)
    (hwf : wellFormed t = true) :
    ∀ e ∈ entriesOf t recursive, ('/' : Char) ∉ e.1 := by
  intro e he
  rw [entriesOf] at he
  cases recursive with
  | true => exact walkEntries_fn_no_slash t hwf e (by simpa using he)
  | false =>
    simp only [if_neg Bool.false_ne_true, topEntries] at he
    rcases List.mem_map.mp he with ⟨f, hf, rfl⟩
    obtain ⟨ft, sds⟩ := t
    exact (wellFormed_dir hwf).2.1 f hf

theorem mem_collect_files {tree : FSTree} {recursive : Bool}
    {includes excludes : List Str} {p : Str} :
    p ∈ Catcb.collect_files tree recursive includes excludes ↔
      ∃ fn, (fn, p) ∈ entriesOf tree recursive ∧
        Catcb.keepFile includes excludes fn p = true := by
  unfold Catcb.collect_files
  constructor
  · intro h
    rcases List.mem_map.mp h with ⟨e, he, rfl⟩
    rcases List.mem_filter.mp he with ⟨hmem, hkeep⟩
    exact ⟨e.1, hmem, hkeep⟩
  · rintro ⟨fn, hmem, hkeep⟩
    exact List.mem_map.mpr ⟨(fn, p), List.mem_filter.mpr ⟨hmem, hkeep⟩, rfl⟩

theorem dir_branch_false {fn pat : Str} (hfn : ('/' : Char) ∉ fn) :
    ((!pat.contains '/' && !pat.contains '*' && !pat.contains '?') &&
      (Catcb.rstripSlash pat ++ ['/']).isPrefixOf fn) = false := by
  by_cases hp : (Catcb.rstripSlash pat ++ ['/']).isPrefixOf fn = true
  · have hpre : (Catcb.rstripSlash pat ++ ['/']) <+: fn :=
      List.isPrefixOf_iff_prefix.mp hp
    have : ('/' : Char) ∈ fn := hpre.subset (by simp)
    exact absurd this hfn
  · have hp' : (Catcb.rstripSlash pat ++ ['/']).isPrefixOf fn = false :=
      Bool.eq_false_iff.mpr hp
    rw [hp', Bool.and_false]

theorem matches_any_pattern_no_slash {fn : Str} (hfn : ('/' : Char) ∉ fn)
    (pats : List Str) :
    Catcb.matches_any_pattern fn pats = pats.any (fun pat => fnmatch fn pat) := by
  unfold Catcb.matches_any_pattern
  induction pats with
  | nil => rfl
  | cons pat rest ih =>
    simp only [List.any_cons]
    rw [dir_branch_false hfn, Bool.false_or, ih]

theorem matches_any_pattern_dir_prefix {rel pat : Str} {pats : List Str}
    (hpat : pat ∈ pats)
    (hplain : (!pat.contains '/' && !pat.contains '*' && !pat.contains '?') = true)
    (hpre : (Catcb.rstripSlash pat ++ ['/']).isPrefixOf rel = true) :
    Catcb.matches_any_pattern rel pats = true := by
  unfold Catcb.matches_any_pattern
  rw [List.any_eq_true]
  refine ⟨pat, hpat, ?_⟩
  rw [hplain, hpre]
  rfl

theorem keepFile_true_iff {includes excludes : List Str} {fn rel : Str}
    (hi : includes ≠ []) (he : excludes ≠ []) :
    Catcb.keepFile includes excludes fn rel = true ↔
      (Catcb.matches_any_pattern fn includes = true ∧
        Catcb.matches_any_pattern rel excludes = false) := by
  unfold Catcb.keepFile
  have hi' : includes.isEmpty = false := by
    cases includes
    · exact absurd rfl hi
    · rfl
  have he' : excludes.isEmpty = false := by
    cases excludes
    · exact absurd rfl he
    · rfl
  rw [hi', he']
  cases hm : Catcb.matches_any_pattern fn includes <;>
    cases hx : Catcb.matches_any_pattern rel excludes <;>
    simp [hm, hx]

theorem keepFile_includes_first {includes excludes : List Str} {fn rel : Str}
    (hi : includes ≠ []) (hm : Catcb.matches_any_pattern fn includes = false) :
    Catcb.keepFile includes excludes fn rel = false := by
  unfold Catcb.keepFile
  have hi' : includes.isEmpty = false := by
    cases includes
    · exact absurd rfl hi
    · rfl
  rw [hi', hm]
  rfl

theorem collect_files_sublist (tree : FSTree) (recursive : Bool)
    (includes excludes : List Str) :
    (Catcb.collect_files tree recursive includes excludes).Sublist
      ((entriesOf tree recursive).map Prod.snd) :=
  List.Sublist.map _ (List.filter_sublist _)

theorem keepFile_excluded {includes excludes : List Str} {fn rel : Str}
    (hx : Catcb.matches_any_pattern rel excludes = true) (hne : excludes ≠ []) :
    Catcb.keepFile includes excludes fn rel = false := by
  unfold Catcb.keepFile
  have he' : excludes.isEmpty = false := by
    cases excludes
    · exact absurd rfl hne
    · rfl
  rw [he', hx]
  simp

theorem mem_collect_files_copipe {tree : FSTree} {recursive : Bool}
    {extensions : List Str} {p : Str} :
    p ∈ Copipe.collect_files tree recursive extensions ↔
      ∃ fn, (fn, p) ∈ entriesOf tree recursive ∧
        (extensions.isEmpty || extensions.any (fun ext => ext.isSuffixOf fn)) = true := by
  unfold Copipe.collect_files
  constructor
  · intro h
    rcases List.mem_map.mp h with ⟨e, he, rfl⟩
    rcases List.mem_filter.mp he with ⟨hmem, hkeep⟩
    exact ⟨e.1, hmem, hkeep⟩
  · rintro ⟨fn, hmem, hkeep⟩
    exact List.mem_map.mpr ⟨(fn, p), List.mem_filter.mpr ⟨hmem, hkeep⟩, rfl⟩

theorem foldl_append_map {α β : Type} (f : α → β) (l : List α) (acc : List β) :
    l.foldl (fun a x => a ++ [f x]) acc = acc ++ l.map f := by
  induction l generalizing acc with
  | nil => simp
  | cons x xs ih => simp [ih]

theorem build_output_eq (readFile : Str → Except Str Str) (base_dir : Str)
    (file_paths : List Str) :
    Catcb.build_output readFile base_dir file_paths =
      List.intercalate ('\n' :: '\n' :: [])
        ((sortedPy file_paths).map (Catcb.renderBlock readFile base_dir)) := by
  unfold Catcb.build_output
  rw [foldl_append_map]
  simp

/-! ## Claim theorems -/

/-- Claim C1: with a non-empty include set and a non-empty exclude set, the
collector emits a file iff its basename matches at least one include glob
and its relative path is matched by no exclude pattern; moreover the include
check is applied first, so a file failing it is skipped with the very same
outcome whatever the exclude set is. -/
theorem collector_include_and_exclude (tree : FSTree) (recursive : Bool)
    (includes excludes : List Str) (hwf : wellFormed tree = true)
    (hi : includes ≠ []) (he : excludes ≠ []) :
    (∀ p, p ∈ Catcb.collect_files tree recursive includes excludes ↔
      ∃ fn, (fn, p) ∈ entriesOf tree recursive ∧
        includes.any (fun pat => fnmatch fn pat) = true ∧
        Catcb.matches_any_pattern p excludes = false) ∧
    (∀ fn rel excludes2, ('/' : Char) ∉ fn →
      includes.any (fun pat => fnmatch fn pat) = false →
      Catcb.keepFile includes excludes2 fn rel = false) := by
  constructor
  · intro p
    rw [mem_collect_files]
    constructor
    · rintro ⟨fn, hmem, hkeep⟩
      have hslash := entriesOf_fn_no_slash tree recursive hwf (fn, p) hmem
      rw [keepFile_true_iff hi he] at hkeep
      refine ⟨fn, hmem, ?_, hkeep.2⟩
      rw [← matches_any_pattern_no_slash hslash includes]
      exact hkeep.1
    · rintro ⟨fn, hmem, hinc, hexc⟩
      have hslash := entriesOf_fn_no_slash tree recursive hwf (fn, p) hmem
      refine ⟨fn, hmem, ?_⟩
      rw [keepFile_true_iff hi he]
      refine ⟨?_, hexc⟩
      rw [matches_any_pattern_no_slash hslash includes]
      exact hinc
  · intro fn rel excludes2 hslash hfail
    apply keepFile_includes_first hi
    rw [matches_any_pattern_no_slash hslash includes]
    exact hfail

theorem collector_include_and_exclude_witness :
    wellFormed sampleTree = true ∧
    (["*.py".toList] : List Str) ≠ [] ∧
    (["node_modules".toList] : List Str) ≠ [] ∧
    "a.py".toList ∈
      Catcb.collect_files sampleTree true ["*.py".toList] ["node_modules".toList] :=
  ⟨by decide, by decide, by decide,
    ((collector_include_and_exclude sampleTree true ["*.py".toList]
        ["node_modules".toList] (by decide) (by decide) (by decide)).1
      ("a.py".toList)).mpr
      ⟨"a.py".toList, by decide, by decide, by decide⟩⟩

/-- Claim C2 counterexample: on a concrete tree the collector's own result is
not lexicographically sorted (the base file `z` precedes the subdirectory
file `a/b` in walk order), so `collect_files` does not return a sorted list. -/
theorem collector_sorted_counterexample :
    Catcb.collect_files unsortedTree true [] [] = ["z".toList, "a/b".toList] ∧
    Catcb.collect_files unsortedTree true [] [] ≠
      sortedPy (Catcb.collect_files unsortedTree true [] []) := by
  constructor
  · decide
  · decide

/-- Claim C2 (amended): the collector returns the matching relative paths in
directory-walk order — a subsequence of the walk's file sequence, not
necessarily sorted; the lexicographic sorting happens in the formatter,
which sorts the path list (`sortedPy`) before rendering the blocks. -/
theorem collector_walk_order_formatter_sorts (tree : FSTree) (recursive : Bool)
    (includes excludes : List Str) :
    (Catcb.collect_files tree recursive includes excludes).Sublist
      ((entriesOf tree recursive).map Prod.snd) ∧
    (∀ l : List Str, List.Sorted LexLe (sortedPy l)) ∧
    (∀ readFile base_dir file_paths,
      Catcb.build_output readFile base_dir file_paths =
        List.intercalate ('\n' :: '\n' :: [])
          ((sortedPy file_paths).map (Catcb.renderBlock readFile base_dir))) :=
  ⟨collect_files_sublist tree recursive includes excludes,
    sortedPy_sorted,
    build_output_eq⟩

/-- Claim C3: when the exclude set contains the plain name `node_modules`
(no wildcard, no separator), every relative path beginning with
`node_modules/` is omitted from the collector's result, whatever the include
patterns say. -/
theorem collector_excludes_node_modules (tree : FSTree) (recursive : Bool)
    (includes excludes : List Str) (p : Str)
    (hx : "node_modules".toList ∈ excludes)
    (hp : ("node_modules/".toList).isPrefixOf p = true) :
    p ∉ Catcb.collect_files tree recursive includes excludes := by
  intro hmem
  rcases mem_collect_files.mp hmem with ⟨fn, _, hkeep⟩
  have hpre : (Catcb.rstripSlash ("node_modules".toList) ++ ['/']).isPrefixOf p = true := by
    have heq : Catcb.rstripSlash ("node_modules".toList) ++ ['/'] =
        "node_modules/".toList := by decide
    rw [heq]
    exact hp
  have hexc : Catcb.matches_any_pattern p excludes = true :=
    matches_any_pattern_dir_prefix hx (by decide) hpre
  have hfalse := @keepFile_excluded includes excludes fn p hexc
    (List.ne_nil_of_mem hx)
  rw [hkeep] at hfalse
  exact absurd hfalse (by decide)

theorem collector_excludes_node_modules_witness :
    "node_modules".toList ∈ (["node_modules".toList] : List Str) ∧
    ("node_modules/".toList).isPrefixOf ("node_modules/x.py".toList) = true ∧
    "node_modules/x.py".toList ∉
      Catcb.collect_files sampleTree true ["*.py".toList] ["node_modules".toList] :=
  ⟨by decide, by decide,
    collector_excludes_node_modules sampleTree true ["*.py".toList]
      ["node_modules".toList] ("node_modules/x.py".toList) (by decide) (by decide)⟩

/-- Claim C10: in `copipe.py`, with a non-empty extension list a file is
kept iff its basename ends with one of the extension strings as a raw
suffix (`str.endswith`); no dot boundary is required, so the extension
argument `py` matches the filename `happy`, as the witness shows. -/
theorem copipe_extension_raw_suffix (tree : FSTree) (recursive : Bool)
    (extensions : List Str) (p : Str) (hne : extensions ≠ []) :
    p ∈ Copipe.collect_files tree recursive extensions ↔
      ∃ fn, (fn, p) ∈ entriesOf tree recursive ∧
        extensions.any (fun ext => ext.isSuffixOf fn) = true := by
  rw [mem_collect_files_copipe]
  have he' : extensions.isEmpty = false := by
    cases extensions
    · exact absurd rfl hne
    · rfl
  simp [he']

theorem copipe_extension_raw_suffix_witness :
    (["py".toList] : List Str) ≠ [] ∧
    "happy".toList ∈ Copipe.collect_files happyTree true ["py".toList] :=
  ⟨by decide,
    (copipe_extension_raw_suffix happyTree true ["py".toList] ("happy".toList)
        (by decide)).mpr
      ⟨"happy".toList, by decide, by decide⟩⟩

theorem foldl_append_f {α β : Type} (g : List β → α → List β) (f : α → β)
    (hg : ∀ acc x, g acc x = acc ++ [f x]) (l : List α) (acc : List β) :
    l.foldl g acc = acc ++ l.map f := by
  induction l generalizing acc with
  | nil => simp
  | cons x xs ih =>
    rw [List.foldl_cons, hg, ih, List.map_cons]
    simp

theorem copipe_build_output_eq (readFile : Str → Except Str Str)
    (base_dir : Str) (file_paths : List Str) :
    Copipe.build_output readFile base_dir file_paths =
      Catcb.build_output readFile base_dir file_paths := by
  rw [build_output_eq]
  unfold Copipe.build_output
  rw [foldl_append_f _ (Catcb.renderBlock readFile base_dir)]
  · simp
  · intro acc relpath
    unfold Catcb.renderBlock
    cases readFile (os_path_join base_dir relpath) with
    | ok c => simp
    | error e => simp

/-- Claim C5: the formatter produces exactly one block per matched path, in
lexicographic path order (the sorted paths are a permutation of the input
paths), joined by a blank line; a path whose read succeeds yields the block
`"<path>:\n<text>"` and a path whose read fails yields the inline block
`"<path>: [Error reading file: <message>]"` instead of aborting; the
`copipe.py` formatter produces the same output as the `catcb.py` one. -/
theorem formatter_blocks (readFile : Str → Except Str Str) (base_dir : Str)
    (file_paths : List Str) :
    (Catcb.build_output readFile base_dir file_paths =
      List.intercalate ('\n' :: '\n' :: [])
        ((sortedPy file_paths).map (Catcb.renderBlock readFile base_dir))) ∧
    ((sortedPy file_paths).map (Catcb.renderBlock readFile base_dir)).length
        = file_paths.length ∧
    List.Sorted LexLe (sortedPy file_paths) ∧
    (sortedPy file_paths).Perm file_paths ∧
    (∀ p content, readFile (os_path_join base_dir p) = .ok content →
      Catcb.renderBlock readFile base_dir p = p ++ ':' :: '\n' :: content) ∧
    (∀ p msg, readFile (os_path_join base_dir p) = .error msg →
      Catcb.renderBlock readFile base_dir p =
        p ++ (": [Error reading file: ".toList) ++ msg ++ [']']) ∧
    (∀ l, Copipe.build_output readFile base_dir l =
      Catcb.build_output readFile base_dir l) := by
  refine ⟨build_output_eq readFile base_dir file_paths, ?_, sortedPy_sorted _,
    sortedPy_perm _, ?_, ?_, fun l => copipe_build_output_eq readFile base_dir l⟩
  · rw [List.length_map, sortedPy_length]
  · intro p content hok
    unfold Catcb.renderBlock
    rw [hok]
  · intro p msg herr
    unfold Catcb.renderBlock
    rw [herr]

theorem formatter_blocks_witness :
    sampleRead (os_path_join ("/base".toList) ("a.txt".toList)) =
        .ok ("hello".toList) ∧
    sampleRead (os_path_join ("/base".toList) ("gone.txt".toList)) =
        .error ("No such file or directory".toList) ∧
    Catcb.renderBlock sampleRead ("/base".toList) ("a.txt".toList) =
        "a.txt".toList ++ ':' :: '\n' :: "hello".toList ∧
    Catcb.renderBlock sampleRead ("/base".toList) ("gone.txt".toList) =
        "gone.txt".toList ++ (": [Error reading file: ".toList) ++
          "No such file or directory".toList ++ [']'] :=
  ⟨by decide, by decide,
    (formatter_blocks sampleRead ("/base".toList)
        ["a.txt".toList, "gone.txt".toList]).2.2.2.2.1
      ("a.txt".toList) ("hello".toList) (by decide),
    (formatter_blocks sampleRead ("/base".toList)
        ["a.txt".toList, "gone.txt".toList]).2.2.2.2.2.1
      ("gone.txt".toList) ("No such file or directory".toList) (by decide)⟩

/-- Claim C8: the formatter is deterministic — its output depends only on
the mapping from path to read outcome, so two runs over an unchanged file
set produce byte-identical output, for both utilities. -/
theorem formatter_deterministic (readFile1 readFile2 : Str → Except Str Str)
    (base_dir : Str) (file_paths : List Str)
    (hsame : ∀ p ∈ file_paths,
      readFile1 (os_path_join base_dir p) = readFile2 (os_path_join base_dir p)) :
    Catcb.build_output readFile1 base_dir file_paths =
      Catcb.build_output readFile2 base_dir file_paths ∧
    Copipe.build_output readFile1 base_dir file_paths =
      Copipe.build_output readFile2 base_dir file_paths := by
  have hcat : Catcb.build_output readFile1 base_dir file_paths =
      Catcb.build_output readFile2 base_dir file_paths := by
    rw [build_output_eq, build_output_eq]
    congr 1
    apply List.map_congr_left
    intro p hp
    have hmem : p ∈ file_paths := (sortedPy_perm file_paths).subset hp
    unfold Catcb.renderBlock
    rw [hsame p hmem]
  exact ⟨hcat, by rw [copipe_build_output_eq, copipe_build_output_eq, hcat]⟩

theorem formatter_deterministic_witness :
    (∀ p ∈ (["a.txt".toList, "gone.txt".toList] : List Str),
      sampleRead (os_path_join ("/base".toList) p) =
        sampleRead2 (os_path_join ("/base".toList) p)) ∧
    Catcb.build_output sampleRead ("/base".toList)
        ["a.txt".toList, "gone.txt".toList] =
      Catcb.build_output sampleRead2 ("/base".toList)
        ["a.txt".toList, "gone.txt".toList] :=
  ⟨by decide,
    (formatter_deterministic sampleRead sampleRead2 ("/base".toList)
      ["a.txt".toList, "gone.txt".toList] (by decide)).1⟩

/-- Claim C6: run outside a version-controlled tree, `gitdiffcb` exits with
code 1, prints an error message to stderr, and performs no clipboard
write. -/
theorem gitdiffcb_not_repo (is_repo : Bool) (git_diff : Bool → Str)
    (staged cached verbose : Bool) (h : is_repo = false) :
    Gitdiffcb.main is_repo git_diff staged cached verbose =
      { exit_code := 1, stdout_lines := [],
        stderr_lines := ["Error: Not a Git repository.".toList],
        clipboard := none } := by
  subst h
  rfl

theorem gitdiffcb_not_repo_witness :
    (false : Bool) = false ∧
    Gitdiffcb.main false (fun _ => []) false false false =
      { exit_code := 1, stdout_lines := [],
        stderr_lines := ["Error: Not a Git repository.".toList],
        clipboard := none } :=
  ⟨rfl, gitdiffcb_not_repo false (fun _ => []) false false false rfl⟩

/-- Claim C7: run inside a version-controlled tree, `gitdiffcb` reports
`No changes found. Nothing copied.`, skips the clipboard write and exits
with code 0 when the captured diff is empty or whitespace-only; otherwise
it copies the diff output verbatim to the clipboard (still exiting 0). -/
theorem gitdiffcb_in_repo (is_repo : Bool) (git_diff : Bool → Str)
    (staged cached verbose : Bool) (h : is_repo = true) :
    ((Gitdiffcb.pyStrip (git_diff (staged || cached))).isEmpty = true →
      Gitdiffcb.main is_repo git_diff staged cached verbose =
        { exit_code := 0,
          stdout_lines := ["No changes found. Nothing copied.".toList],
          stderr_lines := [], clipboard := none }) ∧
    ((Gitdiffcb.pyStrip (git_diff (staged || cached))).isEmpty = false →
      (Gitdiffcb.main is_repo git_diff staged cached verbose).clipboard =
          some (git_diff (staged || cached)) ∧
        (Gitdiffcb.main is_repo git_diff staged cached verbose).exit_code = 0) := by
  subst h
  unfold Gitdiffcb.main
  constructor
  · intro hempty
    simp [hempty]
  · intro hne
    simp [hne]

theorem gitdiffcb_in_repo_witness :
    (true : Bool) = true ∧
    (Gitdiffcb.pyStrip ((fun _ : Bool => ['x']) (false || false))).isEmpty = false ∧
    (Gitdiffcb.main true (fun _ => ['x']) false false false).clipboard = some ['x'] :=
  ⟨rfl, by decide,
    ((gitdiffcb_in_repo true (fun _ => ['x']) false false false rfl).2
      (by decide)).1⟩

/-- Claim C9: when the collector matches zero files and `--preview` is not
given, both concatenation utilities still write to the clipboard — the
empty string is copied — and print `Copied to clipboard.`. -/
theorem empty_match_still_copies (tree : FSTree)
    (readFile : Str → Except Str Str) (base_dir : Str)
    (recursive verbose : Bool) (includes excludes extensions : List Str)
    (hc : Catcb.collect_files tree recursive includes excludes = [])
    (hc2 : Copipe.collect_files tree recursive extensions = []) :
    (Catcb.main tree readFile base_dir recursive false verbose
        includes excludes).clipboard = some [] ∧
    "Copied to clipboard.".toList ∈
      (Catcb.main tree readFile base_dir recursive false verbose
        includes excludes).stdout_lines ∧
    (Copipe.main tree readFile base_dir recursive verbose extensions).clipboard
        = some [] ∧
    "Copied to clipboard.".toList ∈
      (Copipe.main tree readFile base_dir recursive verbose
        extensions).stdout_lines := by
  have hempty : ∀ r : Str → Except Str Str,
      Catcb.build_output r base_dir [] = [] := by
    intro r
    rfl
  have hempty2 : ∀ r : Str → Except Str Str,
      Copipe.build_output r base_dir [] = [] := by
    intro r
    rfl
  unfold Catcb.main Copipe.main
  rw [hc, hc2]
  cases verbose <;>
    simp [hempty readFile, hempty2 readFile]

theorem empty_match_still_copies_witness :
    Catcb.collect_files emptyTree true ["*.py".toList] [] = [] ∧
    Copipe.collect_files emptyTree true [".py".toList] = [] ∧
    (Catcb.main emptyTree sampleRead ("/base".toList) true false false
        ["*.py".toList] []).clipboard = some [] ∧
    (Copipe.main emptyTree sampleRead ("/base".toList) true false
        [".py".toList]).clipboard = some [] :=
  ⟨by decide, by decide,
    (empty_match_still_copies emptyTree sampleRead ("/base".toList) true false
      ["*.py".toList] [] [".py".toList] (by decide) (by decide)).1,
    (empty_match_still_copies emptyTree sampleRead ("/base".toList) true false
      ["*.py".toList] [] [".py".toList] (by decide) (by decide)).2.2.1⟩

theorem joinSegs_cons (d : Str) (segs : List Str) (h : segs ≠ []) :
    joinSegs (d :: segs) = d ++ '/' :: joinSegs segs := by
  cases segs with
  | nil => exact absurd rfl h
  | cons s rest => rfl

theorem slash_join_inj {a b p q : Str} (ha : ('/' : Char) ∉ a)
    (hb : ('/' : Char) ∉ b) (h : a ++ '/' :: p = b ++ '/' :: q) :
    a = b ∧ p = q := by
  induction a generalizing b with
  | nil =>
    cases b with
    | nil =>
      simp only [List.nil_append] at h
      injection h with h1 h2
      exact ⟨rfl, h2⟩
    | cons y ys =>
      rw [List.nil_append, List.cons_append] at h
      injection h with h1 h2
      exact absurd (h1 ▸ List.mem_cons_self y ys) hb
  | cons x xs ih =>
    cases b with
    | nil =>
      rw [List.nil_append, List.cons_append] at h
      injection h with h1 h2
      exact absurd (h1.symm ▸ List.mem_cons_self x xs) ha
    | cons y ys =>
      rw [List.cons_append, List.cons_append] at h
      injection h with h1 h2
      have hxs : ('/' : Char) ∉ xs := fun hm => ha (List.mem_cons_of_mem _ hm)
      have hys : ('/' : Char) ∉ ys := fun hm => hb (List.mem_cons_of_mem _ hm)
      rcases ih hxs hys h2 with ⟨he, hp⟩
      exact ⟨by rw [h1, he], hp⟩

theorem mem_walkList_shape {l : List (Str × FSTree)} {p : Str}
    (h : p ∈ (walkEntriesList l).map Prod.snd) :
    ∃ name sub q, (name, sub) ∈ l ∧ q ∈ (walkEntries sub).map Prod.snd ∧
      p = name ++ '/' :: q := by
  induction l with
  | nil => rw [walkEntriesList] at h; simp at h
  | cons hd tl ih =>
    obtain ⟨name, sub⟩ := hd
    rw [walkEntriesList, List.map_append, List.map_map] at h
    rcases List.mem_append.mp h with h1 | h1
    · rcases List.mem_map.mp h1 with ⟨e, he, rfl⟩
      exact ⟨name, sub, e.2, List.mem_cons_self _ _,
        List.mem_map.mpr ⟨e, he, rfl⟩, rfl⟩
    · rcases ih h1 with ⟨n, s, q, hmem, hq, rfl⟩
      exact ⟨n, s, q, List.mem_cons_of_mem _ hmem, hq, rfl⟩

mutual

theorem mem_walk_iff (t : FSTree) (p : Str) :
    p ∈ (walkEntries t).map Prod.snd ↔
      ∃ segs, segs ≠ [] ∧ isFileAt t segs = true ∧ joinSegs segs = p := by
  match t with
  | .dir files subdirs =>
    rw [walkEntries, List.map_append, List.map_map]
    constructor
    · intro h
      rcases List.mem_append.mp h with h1 | h1
      · rcases List.mem_map.mp h1 with ⟨f, hf, rfl⟩
        refine ⟨[f], by simp, ?_, rfl⟩
        rw [isFileAt]
        exact List.elem_iff.mpr hf
      · rcases (mem_walkList_iff subdirs p).mp h1 with ⟨d, segs, hne, hfl, hjoin⟩
        refine ⟨d :: segs, by simp, ?_, hjoin⟩
        cases segs with
        | nil => exact absurd rfl hne
        | cons s rest =>
          rw [isFileAt]
          exact hfl
    · rintro ⟨segs, hne, hfile, rfl⟩
      cases segs with
      | nil => exact absurd rfl hne
      | cons s rest =>
        cases rest with
        | nil =>
          rw [isFileAt] at hfile
          apply List.mem_append.mpr
          left
          exact List.mem_map.mpr ⟨s, List.elem_iff.mp hfile, rfl⟩
        | cons s2 rest2 =>
          rw [isFileAt] at hfile
          apply List.mem_append.mpr
          right
          exact (mem_walkList_iff subdirs _).mpr ⟨s, s2 :: rest2, by simp, hfile, rfl⟩

theorem mem_walkList_iff (l : List (Str × FSTree)) (p : Str) :
    p ∈ (walkEntriesList l).map Prod.snd ↔
      ∃ d segs, segs ≠ [] ∧ isFileAtList l d segs = true ∧
        joinSegs (d :: segs) = p := by
  match l with
  | [] =>
    rw [walkEntriesList]
    constructor
    · intro h
      simp at h
    · rintro ⟨d, segs, hne, hfl, hjoin⟩
      rw [isFileAtList] at hfl
      exact absurd hfl (by decide)
  | (name, sub) :: rest =>
    rw [walkEntriesList, List.map_append, List.map_map]
    constructor
    · intro h
      rcases List.mem_append.mp h with h1 | h1
      · rcases List.mem_map.mp h1 with ⟨e, he, rfl⟩
        have hq : e.2 ∈ (walkEntries sub).map Prod.snd :=
          List.mem_map.mpr ⟨e, he, rfl⟩
        rcases (mem_walk_iff sub e.2).mp hq with ⟨segs, hne, hfile, hjoin⟩
        refine ⟨name, segs, hne, ?_, ?_⟩
        · rw [isFileAtList]
          simp [hfile]
        · rw [joinSegs_cons _ _ hne, hjoin]
          rfl
      · rcases (mem_walkList_iff rest p).mp h1 with ⟨d, segs, hne, hfl, hjoin⟩
        refine ⟨d, segs, hne, ?_, hjoin⟩
        rw [isFileAtList]
        rw [hfl]
        simp
    · rintro ⟨d, segs, hne, hfl, rfl⟩
      rw [isFileAtList] at hfl
      apply List.mem_append.mpr
      simp only [Bool.or_eq_true, Bool.and_eq_true, beq_iff_eq] at hfl
      rcases hfl with ⟨hd, hfile⟩ | h1
      · left
        have hq : joinSegs segs ∈ (walkEntries sub).map Prod.snd :=
          (mem_walk_iff sub _).mpr ⟨segs, hne, hfile, rfl⟩
        rcases List.mem_map.mp hq with ⟨e, he, heq⟩
        apply List.mem_map.mpr
        refine ⟨e, he, ?_⟩
        show name ++ '/' :: e.2 = joinSegs (d :: segs)
        rw [joinSegs_cons _ _ hne, heq, hd]
      · right
        exact (mem_walkList_iff rest _).mpr ⟨d, segs, hne, h1, rfl⟩

end

theorem map_snd_dup (files : List Str) :
    files.map (Prod.snd ∘ fun f => (f, f)) = files := by
  induction files with
  | nil => rfl
  | cons f fs ih =>
    rw [List.map_cons, ih]
    rfl

mutual

theorem walk_nodup (t : FSTree) (hwf : wellFormed t = true) :
    ((walkEntries t).map Prod.snd).Nodup := by
  match t with
  | .dir files subdirs =>
    obtain ⟨hnodup, hslash, hnames, hdslash, hwfl⟩ := wellFormed_dir hwf
    rw [walkEntries, List.map_append, List.map_map, map_snd_dup]
    apply List.Nodup.append hnodup
      (walkList_nodup subdirs hwfl hnames hdslash)
    intro a ha hb
    rcases mem_walkList_shape hb with ⟨n, s, q, _, _, rfl⟩
    exact hslash _ ha (by simp)

theorem walkList_nodup (l : List (Str × FSTree)) (hwfl : wellFormedList l = true)
    (hnames : (l.map Prod.fst).Nodup)
    (hdslash : ∀ d ∈ l.map Prod.fst, ('/' : Char) ∉ d) :
    ((walkEntriesList l).map Prod.snd).Nodup := by
  match l with
  | [] => exact List.nodup_nil
  | (name, sub) :: rest =>
    rw [wellFormedList] at hwfl
    simp only [Bool.and_eq_true] at hwfl
    rw [walkEntriesList, List.map_append, List.map_map]
    have heq : (walkEntries sub).map (Prod.snd ∘ fun e => (e.1, name ++ '/' :: e.2)) =
        ((walkEntries sub).map Prod.snd).map (fun q => name ++ '/' :: q) := by
      rw [List.map_map]
      rfl
    rw [heq]
    have hname_slash : ('/' : Char) ∉ name :=
      hdslash name (List.mem_map.mpr ⟨(name, sub), List.mem_cons_self _ _, rfl⟩)
    have htail_names : (rest.map Prod.fst).Nodup := by
      have := hnames
      simp only [List.map_cons, List.nodup_cons] at this
      exact this.2
    have hname_notin : name ∉ rest.map Prod.fst := by
      have := hnames
      simp only [List.map_cons, List.nodup_cons] at this
      exact this.1
    apply List.Nodup.append
    · apply List.Nodup.map ?_ (walk_nodup sub hwfl.1)
      intro q1 q2 hq
      have h2 := List.append_cancel_left hq
      injection h2
    · exact walkList_nodup rest hwfl.2 htail_names
        (fun d hd => hdslash d (by rw [List.map_cons]; exact List.mem_cons_of_mem _ hd))
    · intro a ha hb
      rcases List.mem_map.mp ha with ⟨q, _, rfl⟩
      rcases mem_walkList_shape hb with ⟨n, s, q2, hmem, _, heq2⟩
      have hn_slash : ('/' : Char) ∉ n :=
        hdslash n (by
          rw [List.map_cons]
          exact List.mem_cons_of_mem _ (List.mem_map.mpr ⟨(n, s), hmem, rfl⟩))
      rcases slash_join_inj hname_slash hn_slash heq2 with ⟨hcontra, _⟩
      exact hname_notin (hcontra ▸ List.mem_map.mpr ⟨(n, s), hmem, rfl⟩)

end

theorem collect_files_no_filters (t : FSTree) :
    Catcb.collect_files t true [] [] = (walkEntries t).map Prod.snd := by
  unfold Catcb.collect_files entriesOf
  rw [if_pos rfl]
  congr 1
  apply List.filter_eq_self.mpr
  intro e _
  rfl

/-- Claim C4: with empty include and exclude sets and recursion enabled, the
collector returns exactly the regular files of the (well-formed) tree as
relative paths — a path is in the result iff some non-empty segment list
names a regular file and joins to it — and the result has no duplicates. -/
theorem collector_all_files (tree : FSTree) (hwf : wellFormed tree = true) :
    (∀ p, p ∈ Catcb.collect_files tree true [] [] ↔
      ∃ segs, segs ≠ [] ∧ isFileAt tree segs = true ∧ joinSegs segs = p) ∧
    (Catcb.collect_files tree true [] []).Nodup := by
  rw [collect_files_no_filters]
  exact ⟨fun p => mem_walk_iff tree p, walk_nodup tree hwf⟩

theorem collector_all_files_witness :
    wellFormed sampleTree = true ∧
    "node_modules/x.py".toList ∈ Catcb.collect_files sampleTree true [] [] ∧
    (Catcb.collect_files sampleTree true [] []).Nodup :=
  ⟨by decide,
    ((collector_all_files sampleTree (by decide)).1 _).mpr
      ⟨["node_modules".toList, "x.py".toList], by decide, by decide, by decide⟩,
    (collector_all_files sampleTree (by decide)).2⟩

theorem globMatchF_stable : ∀ (fuel1 fuel2 : Nat) (ts : List GlobTok) (s : Str),
    ts.length + s.length < fuel1 → ts.length + s.length < fuel2 →
    globMatchF fuel1 ts s = globMatchF fuel2 ts s := by
  intro fuel1
  induction fuel1 using Nat.strong_induction_on with
  | _ fuel1 ih =>
    intro fuel2 ts s h1 h2
    match fuel1, fuel2 with
    | 0, _ => exact absurd h1 (by omega)
    | _ + 1, 0 => exact absurd h2 (by omega)
    | f1 + 1, f2 + 1 =>
      match ts, s with
      | [], [] => rfl
      | [], c :: cs => rfl
      | .anySeq :: ts', [] =>
        show globMatchF f1 ts' [] = globMatchF f2 ts' []
        simp only [List.length_cons, List.length_nil] at h1 h2
        exact ih f1 (by omega) f2 ts' []
          (by simp only [List.length_nil]; omega)
          (by simp only [List.length_nil]; omega)
      | .anySeq :: ts', c :: cs =>
        show (globMatchF f1 ts' (c :: cs) || globMatchF f1 (.anySeq :: ts') cs) =
          (globMatchF f2 ts' (c :: cs) || globMatchF f2 (.anySeq :: ts') cs)
        simp only [List.length_cons] at h1 h2
        rw [ih f1 (by omega) f2 ts' (c :: cs)
            (by simp only [List.length_cons]; omega)
            (by simp only [List.length_cons]; omega),
          ih f1 (by omega) f2 (.anySeq :: ts') cs
            (by simp only [List.length_cons]; omega)
            (by simp only [List.length_cons]; omega)]
      | .lit a :: ts', [] => rfl
      | .anyOne :: ts', [] => rfl
      | .cls b items :: ts', [] => rfl
      | .lit a :: ts', c :: cs =>
        show (tokMatchesChar (.lit a) c && globMatchF f1 ts' cs) =
          (tokMatchesChar (.lit a) c && globMatchF f2 ts' cs)
        simp only [List.length_cons] at h1 h2
        rw [ih f1 (by omega) f2 ts' cs (by omega) (by omega)]
      | .anyOne :: ts', c :: cs =>
        show (tokMatchesChar .anyOne c && globMatchF f1 ts' cs) =
          (tokMatchesChar .anyOne c && globMatchF f2 ts' cs)
        simp only [List.length_cons] at h1 h2
        rw [ih f1 (by omega) f2 ts' cs (by omega) (by omega)]
      | .cls b items :: ts', c :: cs =>
        show (tokMatchesChar (.cls b items) c && globMatchF f1 ts' cs) =
          (tokMatchesChar (.cls b items) c && globMatchF f2 ts' cs)
        simp only [List.length_cons] at h1 h2
        rw [ih f1 (by omega) f2 ts' cs (by omega) (by omega)]

theorem globMatchF_eq_globMatchToks (fuel : Nat) (ts : List GlobTok) (s : Str)
    (h : ts.length + s.length < fuel) :
    globMatchF fuel ts s = globMatchToks ts s :=
  globMatchF_stable fuel (ts.length + s.length + 1) ts s h (by omega)

theorem parseGlobF_stable : ∀ (fuel1 fuel2 : Nat) (pat : Str),
    pat.length ≤ fuel1 → pat.length ≤ fuel2 →
    parseGlobF fuel1 pat = parseGlobF fuel2 pat := by
  intro fuel1
  induction fuel1 using Nat.strong_induction_on with
  | _ fuel1 ih =>
    intro fuel2 pat h1 h2
    match pat with
    | [] => cases fuel1 <;> cases fuel2 <;> rfl
    | c :: rest =>
      match fuel1, fuel2 with
      | 0, _ => exact absurd h1 (by simp)
      | _ + 1, 0 => exact absurd h2 (by simp)
      | f1 + 1, f2 + 1 =>
        simp only [List.length_cons] at h1 h2
        by_cases hc1 : c = '*'
        · subst hc1
          show GlobTok.anySeq :: parseGlobF f1 rest = .anySeq :: parseGlobF f2 rest
          rw [ih f1 (by omega) f2 rest (by omega) (by omega)]
        · by_cases hc2 : c = '?'
          · subst hc2
            show GlobTok.anyOne :: parseGlobF f1 rest = .anyOne :: parseGlobF f2 rest
            rw [ih f1 (by omega) f2 rest (by omega) (by omega)]
          · by_cases hc3 : c = '['
            · subst hc3
              match hs : splitClass rest with
              | some (neg, body, rest3) =>
                have hlen := splitClass_length hs
                simp only [parseGlobF, hs]
                rw [ih f1 (by omega) f2 rest3 (by omega) (by omega)]
              | none =>
                simp only [parseGlobF, hs]
                rw [ih f1 (by omega) f2 rest (by omega) (by omega)]
            · rw [show parseGlobF (f1 + 1) (c :: rest) = .lit c :: parseGlobF f1 rest
                  from by simp [parseGlobF, hc1, hc2, hc3],
                show parseGlobF (f2 + 1) (c :: rest) = .lit c :: parseGlobF f2 rest
                  from by simp [parseGlobF, hc1, hc2, hc3],
                ih f1 (by omega) f2 rest (by omega) (by omega)]

theorem parseGlobF_eq_parseGlob (fuel : Nat) (pat : Str) (h : pat.length ≤ fuel) :
    parseGlobF fuel pat = parseGlob pat :=
  parseGlobF_stable fuel pat.length pat h (le_refl _)
